import Mathlib

/-!
Shallow embedding of the erg-video-analysis kinematics core
(`docs/lib/kinematics.mjs` and the adaptive-threshold logic of the frame
handler). Timestamps and angles are embedded as rationals: the detector
performs only field arithmetic and comparisons, so exact rationals model
the JavaScript number semantics on all non-NaN paths; a non-finite
(NaN/undefined) angle input is embedded as `none`.
-/

namespace ErgVideo

/-- `Math.max` on rationals, written as an explicit comparison so that the
kernel can evaluate it on concrete inputs. -/
def jsMaxQ (a b : ℚ) : ℚ := if a < b then b else a

/-- `Math.min` on rationals. -/
def jsMinQ (a b : ℚ) : ℚ := if b < a then b else a

/-- `Math.abs` on rationals. -/
def jsAbs (a : ℚ) : ℚ := if a < 0 then -a else a

/-- `Math.max` on signed integers (used for index clamping). -/
def jsMaxI (a b : ℤ) : ℤ := if a < b then b else a

theorem jsMaxQ_eq_max (a b : ℚ) : jsMaxQ a b = max a b := by
  unfold jsMaxQ
  split
  · exact (max_eq_right (le_of_lt (by assumption))).symm
  · exact (max_eq_left (not_lt.mp (by assumption))).symm

theorem jsMinQ_eq_min (a b : ℚ) : jsMinQ a b = min a b := by
  unfold jsMinQ
  split
  · exact (min_eq_right (le_of_lt (by assumption))).symm
  · exact (min_eq_left (not_lt.mp (by assumption))).symm

theorem jsAbs_eq_abs (a : ℚ) : jsAbs a = |a| := by
  unfold jsAbs
  split
  · exact (abs_of_neg (by assumption)).symm
  · exact (abs_of_nonneg (not_lt.mp (by assumption))).symm

theorem jsMaxI_eq_max (a b : ℤ) : jsMaxI a b = max a b := by
  unfold jsMaxI
  split
  · exact (max_eq_right (le_of_lt (by assumption))).symm
  · exact (max_eq_left (not_lt.mp (by assumption))).symm

/-- A raw angle sample `{t, a}`: timestamp in seconds, angle in degrees. -/
structure Sample where
  t : ℚ
  a : ℚ
deriving DecidableEq, Repr

/-- A finite-difference derivative sample `{t, d}`. -/
structure DSample where
  t : ℚ
  d : ℚ
deriving DecidableEq, Repr

/-- The mutable per-session state of `StrokeState` in `kinematics.mjs`. -/
structure StrokeState where
  catchAngleMax : ℚ
  smooth : ℕ
  minCatchIntervalSec : ℚ
  confirmFrames : ℕ
  windowSize : ℕ
  angles : List Sample
  deriv : List DSample
  catches : List ℚ
  finishes : List ℚ
  posStreak : ℕ
deriving DecidableEq, Repr

/-- The options object accepted by the `StrokeState` constructor, with the
source's default values. -/
structure StrokeConfig where
  catchAngleMax : ℚ := 110
  smooth : ℤ := 5
  minCatchIntervalSec : ℚ := 9/10
  confirmFrames : ℤ := 2
  windowSize : ℤ := 9
deriving DecidableEq, Repr

/-- The `StrokeState` constructor: `smooth`, `confirmFrames` and
`windowSize` are clamped with `Math.max`; `catchAngleMax` and
`minCatchIntervalSec` are stored as given. -/
def StrokeState.init (cfg : StrokeConfig) : StrokeState where
  catchAngleMax := cfg.catchAngleMax
  smooth := (jsMaxI 1 cfg.smooth).toNat
  minCatchIntervalSec := cfg.minCatchIntervalSec
  confirmFrames := (jsMaxI 1 cfg.confirmFrames).toNat
  windowSize := (jsMaxI 3 cfg.windowSize).toNat
  angles := []
  deriv := []
  catches := []
  finishes := []
  posStreak := 0

/-- `smoothedAngle()`: mean of the last `smooth` raw angles, `null` until
that many samples exist. -/
def StrokeState.smoothedAngle (st : StrokeState) : Option ℚ :=
  if st.angles.length < st.smooth then none
  else some ((((st.angles.drop (st.angles.length - st.smooth)).map Sample.a).sum) / st.smooth)

/-- The scan of `_isLocalMin`'s loop: running strict minimum together with
the index of its first occurrence (`minA` starts at `Infinity`, modelled by
the `none` accumulator; a new value replaces only when strictly smaller). -/
def minIdxAux : Option (ℚ × ℕ) → ℕ → List ℚ → Option (ℚ × ℕ)
  | acc, _, [] => acc
  | none, i, x :: xs => minIdxAux (some (x, i)) (i + 1) xs
  | some (m, j), i, x :: xs =>
      if x < m then minIdxAux (some (x, i)) (i + 1) xs
      else minIdxAux (some (m, j)) (i + 1) xs

/-- `_isLocalMin()`: the current sample is the (first) minimum of the last
`windowSize` raw samples. Indices are signed, as in the source, so that the
`minIdx === end` comparison with the `-1` sentinel is preserved exactly. -/
def StrokeState.isLocalMin (st : StrokeState) : Bool :=
  if st.angles.length < st.windowSize then false
  else
    let e : ℤ := (st.angles.length : ℤ) - 1
    let s : ℤ := jsMaxI 0 (e - (st.windowSize : ℤ) + 1)
    let w := (st.angles.drop s.toNat).map Sample.a
    match minIdxAux none s.toNat w with
    | some (_, j) => decide ((j : ℤ) = e)
    | none => decide ((-1 : ℤ) = e)

/-- The refractory guard shared by both catch rules:
`catches.length === 0 || t - catches[last] > minCatchIntervalSec`. -/
def lastCatchOk (catches : List ℚ) (t δ : ℚ) : Bool :=
  match catches.getLast? with
  | none => true
  | some lc => decide (δ < t - lc)

/-- The smoothed-angle threshold guard `sm != null && sm <= catchAngleMax`. -/
def StrokeState.smoothedOk (st : StrokeState) : Bool :=
  match st.smoothedAngle with
  | none => false
  | some v => decide (v ≤ st.catchAngleMax)

/-- The fallback rule's duplicate guard `last && Math.abs(last - t) < 1e-3`
(the push is skipped exactly when this holds; a last catch at timestamp `0`
is falsy in JavaScript and never triggers the skip). -/
def epsilonSkip (catches : List ℚ) (t : ℚ) : Bool :=
  match catches.getLast? with
  | none => false
  | some lc => decide (lc ≠ 0) && decide (jsAbs (lc - t) < 1/1000)

/-- `update` phase 1: push the raw sample and, when a previous sample
exists, the finite-difference derivative with the `1e-6` s floor on `dt`. -/
def pushSampleDeriv (st : StrokeState) (t a : ℚ) : StrokeState :=
  match st.angles.getLast? with
  | none => { st with angles := st.angles ++ [⟨t, a⟩] }
  | some p =>
      let dt := jsMaxQ (1/1000000) (t - p.t)
      { st with
          angles := st.angles ++ [⟨t, a⟩]
          deriv := st.deriv ++ [⟨t, (a - p.a) / dt⟩] }

/-- `update` phase 2: the consecutive non-negative-derivative streak. -/
def streakStep (st : StrokeState) : StrokeState :=
  match st.deriv.getLast? with
  | none => st
  | some dn => { st with posStreak := if 0 ≤ dn.d then st.posStreak + 1 else 0 }

/-- The conjunction guarding the primary catch rule: at least two
derivative samples, a sign flip from negative (`dPrev`) to non-negative
(`dNow`), smoothed angle defined and under threshold, refractory guard,
confirm streak and windowed local minimum. (With two derivative samples
present both lookups succeed; the `false` arm is unreachable.) -/
def primaryGuard (st : StrokeState) (t : ℚ) : Bool :=
  decide (2 ≤ st.deriv.length) &&
    (match st.deriv.get? (st.deriv.length - 2), st.deriv.getLast? with
     | some dp, some dn =>
         st.smoothedOk && decide (dp.d < 0) && decide (0 ≤ dn.d) &&
           lastCatchOk st.catches t st.minCatchIntervalSec &&
           decide (st.confirmFrames ≤ st.posStreak) && st.isLocalMin
     | _, _ => false)

/-- `update` phase 3, the primary catch rule. -/
def primaryStep (st : StrokeState) (t : ℚ) : StrokeState :=
  if primaryGuard st t then { st with catches := st.catches ++ [t] } else st

/-- `update` phase 4, the fallback catch rule: threshold, windowed local
minimum and refractory guard only, with the ~1 ms duplicate suppression. -/
def fallbackStep (st : StrokeState) (t : ℚ) : StrokeState :=
  if st.smoothedOk && st.isLocalMin &&
      lastCatchOk st.catches t st.minCatchIntervalSec && !(epsilonSkip st.catches t) then
    { st with catches := st.catches ++ [t] }
  else st

/-- The `reduce((m, p) => (p.a > m.a ? p : m))` fold of the finish phase:
the first maximum-angle sample of a non-empty window. -/
def maxSample (x : Sample) (xs : List Sample) : Sample :=
  xs.foldl (fun m p => if m.a < p.a then p else m) x

/-- `update` phase 5, finish detection: over the samples at or after the
most recent catch (when at least 3 exist), take the maximum-angle sample
and record its timestamp if it is strictly beyond the last recorded
finish. -/
def finishStep (st : StrokeState) : StrokeState :=
  match st.catches.getLast? with
  | none => st
  | some lastCatch =>
      match st.angles.filter (fun p => decide (lastCatch ≤ p.t)) with
      | [] => st
      | x :: xs =>
          if 3 ≤ (x :: xs).length then
            if st.finishes.getLast?.all (fun lf => decide (lf < (maxSample x xs).t)) then
              { st with finishes := st.finishes ++ [(maxSample x xs).t] }
            else st
          else st

/-- `StrokeState.update(t, angle)`: a non-finite angle (embedded as `none`)
returns immediately; otherwise the five phases run in source order. -/
def StrokeState.update (st : StrokeState) (t : ℚ) (angle : Option ℚ) : StrokeState :=
  match angle with
  | none => st
  | some a => finishStep (fallbackStep (primaryStep (streakStep (pushSampleDeriv st t a)) t) t)

/-- Fold a timestamped input stream through `update` from a given state. -/
def runUpdates (st : StrokeState) (inputs : List (ℚ × Option ℚ)) : StrokeState :=
  inputs.foldl (fun s p => s.update p.1 p.2) st

/-- The record returned by `summary()`. -/
structure Summary where
  strokes : ℕ
  spm : ℚ
  drr : Option ℚ
deriving DecidableEq, Repr

/-- The `periods` loop of `summary()`: consecutive inter-catch intervals,
keeping only those greater than `0.1` s. -/
def periodsOf : List ℚ → List ℚ
  | a :: b :: rest =>
      if 1/10 < b - a then (b - a) :: periodsOf (b :: rest)
      else periodsOf (b :: rest)
  | _ => []

/-- The backward drive/recovery scan of `summary()`: `drrLoop c f k` runs
the loop body for `i = k-1` down to `0`, returning the first ratio found. -/
def drrLoop (c f : List ℚ) : ℕ → Option ℚ
  | 0 => none
  | k + 1 =>
      match c.get? k, f.get? k, c.get? (k + 1) with
      | some tC, some tF, some tN =>
          if tC < tF ∧ tF < tN ∧ 0 < tF - tC ∧ 0 < tN - tF then
            some ((tF - tC) / (tN - tF))
          else drrLoop c f k
      | _, _, _ => drrLoop c f k

/-- `summary()`: stroke count, strokes-per-minute and drive/recovery
ratio. -/
def StrokeState.summary (st : StrokeState) : Summary :=
  let strokes := st.catches.length
  if 2 ≤ strokes then
    let periods := periodsOf st.catches
    let spm : ℚ :=
      if periods.length ≠ 0 then 60 / (periods.sum / periods.length) else 0
    let drr := drrLoop st.catches st.finishes (Nat.min st.finishes.length (st.catches.length - 1))
    ⟨strokes, spm, drr⟩
  else ⟨strokes, 0, none⟩

/-!
Adaptive catch-threshold logic from the frame handler (`updateKneeWindow`,
`estimateCatchThreshold` and the threshold selection in `onResults`).
-/

/-- An entry of the trailing knee-angle window `{t, angle}`. -/
structure KneeSample where
  t : ℚ
  angle : ℚ
deriving DecidableEq, Repr

/-- `const kneeWindowSec = 8`: seconds of knee-angle history retained. -/
def kneeWindowSec : ℚ := 8

/-- `updateKneeWindow(t, angle)`: push the sample unless non-finite, then
shift off entries older than `t - kneeWindowSec`. -/
def updateKneeWindow (w : List KneeSample) (t : ℚ) (angle : Option ℚ) : List KneeSample :=
  match angle with
  | none => w
  | some a => (w ++ [KneeSample.mk t a]).dropWhile (fun k => decide (k.t < t - kneeWindowSec))

/-- The running-minimum fold of `estimateCatchThreshold` (seeded with the
first window entry; `Infinity` always loses to it). -/
def foldMin (x : ℚ) (xs : List ℚ) : ℚ := xs.foldl jsMinQ x

/-- The running-maximum fold of `estimateCatchThreshold`. -/
def foldMax (x : ℚ) (xs : List ℚ) : ℚ := xs.foldl jsMaxQ x

/-- `estimateCatchThreshold()`: with fewer than 10 window samples return
the manual threshold; otherwise `minA + 0.35 * Math.max(1, maxA - minA)`
clamped to `[70, 130]`. -/
def estimateCatchThreshold (w : List KneeSample) (manualCatchThresh : ℚ) : ℚ :=
  match w with
  | [] => manualCatchThresh
  | k :: ks =>
      if (k :: ks).length < 10 then manualCatchThresh
      else
        let minA := foldMin k.angle (ks.map KneeSample.angle)
        let maxA := foldMax k.angle (ks.map KneeSample.angle)
        let range := jsMaxQ 1 (maxA - minA)
        let thr := minA + 35/100 * range
        jsMaxQ 70 (jsMinQ 130 thr)

/-- The threshold selection in `onResults`: the adaptive estimate when
`autoCatch` is enabled, the manual threshold otherwise. -/
def resolvedCatchThreshold (autoCatch : Bool) (w : List KneeSample) (manualCatchThresh : ℚ) : ℚ :=
  if autoCatch then estimateCatchThreshold w manualCatchThresh else manualCatchThresh

/-- The threshold formula as the specification states it, for comparison
with `estimateCatchThreshold`: `windowMin + 0.35 × (windowMax − windowMin)`
clamped to `[70, 130]`, with no floor on the window range. -/
def claimThreshold (w : List KneeSample) (manualCatchThresh : ℚ) : ℚ :=
  match w with
  | [] => manualCatchThresh
  | k :: ks =>
      if (k :: ks).length < 10 then manualCatchThresh
      else
        let minA := foldMin k.angle (ks.map KneeSample.angle)
        let maxA := foldMax k.angle (ks.map KneeSample.angle)
        jsMaxQ 70 (jsMinQ 130 (minA + 35/100 * (maxA - minA)))

/-! ### Helper lemmas -/

theorem foldMin_le (x : ℚ) (xs : List ℚ) : ∀ q ∈ x :: xs, foldMin x xs ≤ q := by
  induction xs generalizing x with
  | nil =>
      intro q hq
      rcases List.mem_singleton.mp hq with rfl
      exact le_refl _
  | cons y ys ih =>
      intro q hq
      have hstep : foldMin x (y :: ys) = foldMin (min x y) ys := by
        have h0 : foldMin x (y :: ys) = foldMin (jsMinQ x y) ys := rfl
        rw [h0, jsMinQ_eq_min]
      have hseed : foldMin (min x y) ys ≤ min x y :=
        ih (min x y) (min x y) (List.mem_cons_self _ _)
      rw [hstep]
      rcases List.mem_cons.mp hq with rfl | hq'
      · exact hseed.trans (min_le_left _ _)
      · rcases List.mem_cons.mp hq' with rfl | hq''
        · exact hseed.trans (min_le_right _ _)
        · exact ih (min x y) q (List.mem_cons_of_mem _ hq'')

theorem foldMin_mem (x : ℚ) (xs : List ℚ) : foldMin x xs ∈ x :: xs := by
  induction xs generalizing x with
  | nil => exact List.mem_singleton.mpr rfl
  | cons y ys ih =>
      have hstep : foldMin x (y :: ys) = foldMin (min x y) ys := by
        have h0 : foldMin x (y :: ys) = foldMin (jsMinQ x y) ys := rfl
        rw [h0, jsMinQ_eq_min]
      rw [hstep]
      rcases List.mem_cons.mp (ih (min x y)) with heq | hmem'
      · rw [heq]
        rcases min_cases x y with ⟨h1, _⟩ | ⟨h1, _⟩
        · rw [h1]; exact List.mem_cons_self _ _
        · rw [h1]; exact List.mem_cons_of_mem _ (List.mem_cons_self _ _)
      · exact List.mem_cons_of_mem _ (List.mem_cons_of_mem _ hmem')

theorem le_foldMax (x : ℚ) (xs : List ℚ) : ∀ q ∈ x :: xs, q ≤ foldMax x xs := by
  induction xs generalizing x with
  | nil =>
      intro q hq
      rcases List.mem_singleton.mp hq with rfl
      exact le_refl _
  | cons y ys ih =>
      intro q hq
      have hstep : foldMax x (y :: ys) = foldMax (max x y) ys := by
        have h0 : foldMax x (y :: ys) = foldMax (jsMaxQ x y) ys := rfl
        rw [h0, jsMaxQ_eq_max]
      have hseed : max x y ≤ foldMax (max x y) ys :=
        ih (max x y) (max x y) (List.mem_cons_self _ _)
      rw [hstep]
      rcases List.mem_cons.mp hq with rfl | hq'
      · exact (le_max_left _ _).trans hseed
      · rcases List.mem_cons.mp hq' with rfl | hq''
        · exact (le_max_right _ _).trans hseed
        · exact ih (max x y) q (List.mem_cons_of_mem _ hq'')

theorem foldMax_mem (x : ℚ) (xs : List ℚ) : foldMax x xs ∈ x :: xs := by
  induction xs generalizing x with
  | nil => exact List.mem_singleton.mpr rfl
  | cons y ys ih =>
      have hstep : foldMax x (y :: ys) = foldMax (max x y) ys := by
        have h0 : foldMax x (y :: ys) = foldMax (jsMaxQ x y) ys := rfl
        rw [h0, jsMaxQ_eq_max]
      rw [hstep]
      rcases List.mem_cons.mp (ih (max x y)) with heq | hmem'
      · rw [heq]
        rcases max_cases x y with ⟨h1, _⟩ | ⟨h1, _⟩
        · rw [h1]; exact List.mem_cons_self _ _
        · rw [h1]; exact List.mem_cons_of_mem _ (List.mem_cons_self _ _)
      · exact List.mem_cons_of_mem _ (List.mem_cons_of_mem _ hmem')

theorem foldMin_eq (x : ℚ) (xs : List ℚ) (m : ℚ)
    (hmem : m ∈ x :: xs) (hle : ∀ q ∈ x :: xs, m ≤ q) : foldMin x xs = m :=
  le_antisymm (foldMin_le x xs m hmem) (hle _ (foldMin_mem x xs))

theorem foldMax_eq (x : ℚ) (xs : List ℚ) (M : ℚ)
    (hmem : M ∈ x :: xs) (hge : ∀ q ∈ x :: xs, q ≤ M) : foldMax x xs = M :=
  le_antisymm (hge _ (foldMax_mem x xs)) (le_foldMax x xs M hmem)

/-! ### Claim theorems: configuration and dropped updates -/

/-- Claim C7: updating with a non-finite (undefined/NaN) angle, embedded as
`none`, returns without a fault and leaves the whole state — angle history,
derivative history, positive streak, catches and finishes — unchanged. -/
theorem spec_C7_nonfinite_angle_noop (st : StrokeState) (t : ℚ) :
    st.update t none = st ∧
    (st.update t none).angles = st.angles ∧
    (st.update t none).deriv = st.deriv ∧
    (st.update t none).posStreak = st.posStreak ∧
    (st.update t none).catches = st.catches ∧
    (st.update t none).finishes = st.finishes :=
  ⟨rfl, rfl, rfl, rfl, rfl, rfl⟩

/-- Claim C4, counterexample: the constructor stores a non-positive
`minCatchIntervalSec` unchanged instead of clamping it to a positive
value, refuting the claim that the stored interval is always positive. -/
theorem spec_C4_counterexample :
    (StrokeState.init { minCatchIntervalSec := -1 }).minCatchIntervalSec = -1 ∧
    ¬ 0 < (StrokeState.init { minCatchIntervalSec := -1 }).minCatchIntervalSec := by
  exact ⟨rfl, by decide⟩

/-- Claim C4, amended: construction clamps `smooth` to at least 1,
`confirmFrames` to at least 1 and `windowSize` to at least 3, for every
input configuration; `minCatchIntervalSec` (and `catchAngleMax`) are
stored exactly as given, with no clamping. -/
theorem spec_C4_construction_clamps (cfg : StrokeConfig) :
    1 ≤ (StrokeState.init cfg).smooth ∧
    1 ≤ (StrokeState.init cfg).confirmFrames ∧
    3 ≤ (StrokeState.init cfg).windowSize ∧
    (StrokeState.init cfg).minCatchIntervalSec = cfg.minCatchIntervalSec ∧
    (StrokeState.init cfg).catchAngleMax = cfg.catchAngleMax := by
  refine ⟨?_, ?_, ?_, rfl, rfl⟩ <;> simp only [StrokeState.init, jsMaxI] <;> split <;> omega

/-- Claim C2, counterexample: on a 10-sample window whose angles are all
equal (window range 0), the code's threshold is `min + 0.35 * max(1, 0)`,
which differs from the claimed `min + 0.35 * (max - min)`; both sides land
inside the `[70, 130]` clamp, so the two formulas disagree. -/
theorem spec_C2_counterexample :
    claimThreshold (List.replicate 10 (KneeSample.mk 0 100)) 110 = 100 ∧
    estimateCatchThreshold (List.replicate 10 (KneeSample.mk 0 100)) 110 = 2007/20 ∧
    estimateCatchThreshold (List.replicate 10 (KneeSample.mk 0 100)) 110 ≠
      claimThreshold (List.replicate 10 (KneeSample.mk 0 100)) 110 := by
  refine ⟨?_, ?_, ?_⟩ <;>
    norm_num [claimThreshold, estimateCatchThreshold, foldMin, foldMax, jsMinQ, jsMaxQ,
      List.replicate]

/-- Claim C2, amended: with adaptive mode enabled and at least 10 samples
in the trailing window, the resolved threshold is
`windowMin + 0.35 × max(1, windowMax − windowMin)` clamped to `[70, 130]`
(the window range is floored at 1 before the 0.35 fraction is applied);
with fewer than 10 samples it equals the fixed manual threshold exactly. -/
theorem spec_C2_adaptive_threshold (w : List KneeSample) (manual m M : ℚ)
    (hm : m ∈ w.map KneeSample.angle) (hmle : ∀ q ∈ w.map KneeSample.angle, m ≤ q)
    (hM : M ∈ w.map KneeSample.angle) (hMge : ∀ q ∈ w.map KneeSample.angle, q ≤ M) :
    (w.length < 10 → resolvedCatchThreshold true w manual = manual) ∧
    (10 ≤ w.length →
      resolvedCatchThreshold true w manual =
        max 70 (min 130 (m + 35/100 * max 1 (M - m)))) := by
  have hres : resolvedCatchThreshold true w manual = estimateCatchThreshold w manual := rfl
  cases w with
  | nil =>
      refine ⟨fun _ => rfl, fun h10 => ?_⟩
      simp at h10
  | cons k ks =>
      rw [List.map_cons] at hm hmle hM hMge
      constructor
      · intro hlt
        rw [hres]
        simp only [estimateCatchThreshold, if_pos hlt]
      · intro h10
        rw [hres]
        have hnlt : ¬ (k :: ks).length < 10 := not_lt.mpr h10
        simp only [estimateCatchThreshold, if_neg hnlt,
          foldMin_eq k.angle (ks.map KneeSample.angle) m hm hmle,
          foldMax_eq k.angle (ks.map KneeSample.angle) M hM hMge,
          jsMaxQ_eq_max, jsMinQ_eq_min]

/-- Witness for the amended C2 theorem at a concrete flat window. -/
theorem spec_C2_adaptive_threshold_witness :
    resolvedCatchThreshold true (List.replicate 10 (KneeSample.mk 0 100)) 110 =
      max 70 (min 130 (100 + 35/100 * max 1 (100 - 100))) :=
  (spec_C2_adaptive_threshold (List.replicate 10 (KneeSample.mk 0 100)) 110 100 100
    (by decide) (by decide) (by decide) (by decide)).2 (by decide)

/-! ### MetricsAggregator: summary -/

theorem periodsOf_eq (l : List ℚ) :
    periodsOf l =
      ((l.zip l.tail).map (fun p => p.2 - p.1)).filter (fun d => decide (1/10 < d)) := by
  induction l with
  | nil => rfl
  | cons a l ih =>
      cases l with
      | nil => rfl
      | cons b rest =>
          by_cases h : (1 : ℚ)/10 < b - a
          · simp [periodsOf, if_pos h, ih, List.filter_cons, h]
          · simp [periodsOf, if_neg h, ih, List.filter_cons, h]

/-- Claim C5: `summary()` reports `strokes` as the catch count; `spm` is 0
with fewer than 2 catches, and otherwise equals `60 / mean(intervals)`
over the consecutive inter-catch intervals greater than `0.1` s whenever
at least one such interval exists. -/
theorem spec_C5_summary_spm (st : StrokeState) :
    st.summary.strokes = st.catches.length ∧
    (st.catches.length < 2 → st.summary.spm = 0) ∧
    (2 ≤ st.catches.length →
      ∀ ps, ps = ((st.catches.zip st.catches.tail).map (fun p => p.2 - p.1)).filter
          (fun d => decide (1/10 < d)) →
        ps ≠ [] → st.summary.spm = 60 / (ps.sum / ps.length)) := by
  by_cases h2 : 2 ≤ st.catches.length
  · refine ⟨?_, fun hlt => absurd h2 (not_le.mpr hlt), fun _ ps hps hne => ?_⟩
    · simp only [StrokeState.summary, if_pos h2]
    · have hps' : ps = periodsOf st.catches := by rw [hps, periodsOf_eq]
      have hlen : (periodsOf st.catches).length ≠ 0 := by
        rw [← hps']
        exact fun h => hne (List.length_eq_zero.mp h)
      simp only [StrokeState.summary, if_pos h2, if_pos hlen, hps']
  · have hlt := not_le.mp h2
    refine ⟨?_, fun _ => ?_, fun hge => absurd hge h2⟩
    · simp only [StrokeState.summary, if_neg h2]
    · simp only [StrokeState.summary, if_neg h2]

/-- Witness for C5 at a concrete three-catch state. -/
theorem spec_C5_summary_spm_witness :
    ({ StrokeState.init {} with catches := [0, 1, 2] } : StrokeState).summary.spm =
      60 / (([(1 : ℚ), 1]).sum / ([(1 : ℚ), 1]).length) :=
  (spec_C5_summary_spm { StrokeState.init {} with catches := [0, 1, 2] }).2.2
    (by norm_num) [(1 : ℚ), 1] (by norm_num [List.filter]) (by simp)

/-! ### Drive/recovery ratio characterization -/

/-- The `(catch[i], finish[i], catch[i+1])` triple examined by the
backward scan, when all three indices are in range. -/
def tripleAt (c f : List ℚ) (i : ℕ) : Option (ℚ × ℚ × ℚ) :=
  match c.get? i, f.get? i, c.get? (i + 1) with
  | some tC, some tF, some tN => some (tC, tF, tN)
  | _, _, _ => none

/-- A triple index accepted by the scan: in range, with
`catch[i] < finish[i] < catch[i+1]`. -/
def validTriple (c f : List ℚ) (i : ℕ) : Prop :=
  ∃ tC tF tN, tripleAt c f i = some (tC, tF, tN) ∧ tC < tF ∧ tF < tN

theorem tripleAt_eq_some {c f : List ℚ} {i : ℕ} {tC tF tN : ℚ} :
    tripleAt c f i = some (tC, tF, tN) ↔
      c.get? i = some tC ∧ f.get? i = some tF ∧ c.get? (i + 1) = some tN := by
  unfold tripleAt
  rcases c.get? i with _ | vC <;> rcases f.get? i with _ | vF <;>
    rcases c.get? (i + 1) with _ | vN <;> simp [Prod.ext_iff, and_assoc]

theorem validTriple_bounds {c f : List ℚ} {i : ℕ} (h : validTriple c f i) :
    i + 1 < c.length ∧ i < f.length := by
  obtain ⟨tC, tF, tN, htr, _, _⟩ := h
  obtain ⟨h1, h2, h3⟩ := tripleAt_eq_some.mp htr
  rw [List.get?_eq_getElem?] at h2 h3
  exact ⟨(List.getElem?_eq_some.mp h3).1, (List.getElem?_eq_some.mp h2).1⟩

theorem drrLoop_succ (c f : List ℚ) (k : ℕ) :
    drrLoop c f (k + 1) =
      match tripleAt c f k with
      | some (tC, tF, tN) =>
          if tC < tF ∧ tF < tN ∧ 0 < tF - tC ∧ 0 < tN - tF then
            some ((tF - tC) / (tN - tF))
          else drrLoop c f k
      | none => drrLoop c f k := by
  have h : drrLoop c f (k + 1) =
      match c.get? k, f.get? k, c.get? (k + 1) with
      | some tC, some tF, some tN =>
          if tC < tF ∧ tF < tN ∧ 0 < tF - tC ∧ 0 < tN - tF then
            some ((tF - tC) / (tN - tF))
          else drrLoop c f k
      | _, _, _ => drrLoop c f k := rfl
  rw [h]
  unfold tripleAt
  rcases c.get? k with _ | vC <;> rcases f.get? k with _ | vF <;>
    rcases c.get? (k + 1) with _ | vN <;> rfl

theorem forall_lt_succ_iff {P : ℕ → Prop} (k : ℕ) :
    (∀ i < k + 1, P i) ↔ (∀ i < k, P i) ∧ P k := by
  constructor
  · exact fun h => ⟨fun i hi => h i (hi.trans (Nat.lt_succ_self k)), h k (Nat.lt_succ_self k)⟩
  · intro ⟨h1, h2⟩ i hi
    rcases Nat.lt_succ_iff_lt_or_eq.mp hi with hlt | rfl
    · exact h1 i hlt
    · exact h2

theorem not_validTriple_of_cond_false {c f : List ℚ} {k : ℕ} {tC tF tN : ℚ}
    (htr : tripleAt c f k = some (tC, tF, tN))
    (hcond : ¬ (tC < tF ∧ tF < tN ∧ 0 < tF - tC ∧ 0 < tN - tF)) :
    ¬ validTriple c f k := by
  rintro ⟨tC2, tF2, tN2, htr2, h1, h2⟩
  rw [htr] at htr2
  have heq := Option.some.inj htr2
  simp only [Prod.ext_iff] at heq
  obtain ⟨rfl, rfl, rfl⟩ := heq
  exact hcond ⟨h1, h2, sub_pos.mpr h1, sub_pos.mpr h2⟩

theorem drrLoop_eq_none_iff (c f : List ℚ) (k : ℕ) :
    drrLoop c f k = none ↔ ∀ i < k, ¬ validTriple c f i := by
  induction k with
  | zero => simp [drrLoop]
  | succ k ih =>
      rw [forall_lt_succ_iff, drrLoop_succ]
      rcases htr : tripleAt c f k with _ | ⟨tC, tF, tN⟩
      · have hnv : ¬ validTriple c f k := by
          rintro ⟨tC, tF, tN, htr2, _, _⟩
          rw [htr] at htr2
          cases htr2
        show drrLoop c f k = none ↔ _
        rw [ih]
        simp [hnv]
      · show (if tC < tF ∧ tF < tN ∧ 0 < tF - tC ∧ 0 < tN - tF then
              some ((tF - tC) / (tN - tF)) else drrLoop c f k) = none ↔ _
        by_cases hcond : tC < tF ∧ tF < tN ∧ 0 < tF - tC ∧ 0 < tN - tF
        · have hv : validTriple c f k := ⟨tC, tF, tN, htr, hcond.1, hcond.2.1⟩
          rw [if_pos hcond]
          simp [hv]
        · have hnv := not_validTriple_of_cond_false htr hcond
          rw [if_neg hcond, ih]
          simp [hnv]

theorem drrLoop_eq_some (c f : List ℚ) (k : ℕ) (r : ℚ) (h : drrLoop c f k = some r) :
    ∃ i, i < k ∧
      (∃ tC tF tN, tripleAt c f i = some (tC, tF, tN) ∧ tC < tF ∧ tF < tN ∧
        r = (tF - tC) / (tN - tF)) ∧
      ∀ j, i < j → j < k → ¬ validTriple c f j := by
  induction k with
  | zero => exact absurd h (by simp [drrLoop])
  | succ k ih =>
      rw [drrLoop_succ] at h
      rcases htr : tripleAt c f k with _ | ⟨tC, tF, tN⟩
      · rw [htr] at h
        have h2 : drrLoop c f k = some r := h
        have hnv : ¬ validTriple c f k := by
          rintro ⟨tC, tF, tN, htr2, _, _⟩
          rw [htr] at htr2
          cases htr2
        obtain ⟨i, hik, hdata, hmax⟩ := ih h2
        refine ⟨i, hik.trans (Nat.lt_succ_self k), hdata, fun j hij hjk hv => ?_⟩
        rcases Nat.lt_succ_iff_lt_or_eq.mp hjk with hlt | rfl
        · exact hmax j hij hlt hv
        · exact hnv hv
      · rw [htr] at h
        have h2 : (if tC < tF ∧ tF < tN ∧ 0 < tF - tC ∧ 0 < tN - tF then
            some ((tF - tC) / (tN - tF)) else drrLoop c f k) = some r := h
        by_cases hcond : tC < tF ∧ tF < tN ∧ 0 < tF - tC ∧ 0 < tN - tF
        · rw [if_pos hcond] at h2
          exact ⟨k, Nat.lt_succ_self k,
            ⟨tC, tF, tN, htr, hcond.1, hcond.2.1, (Option.some.inj h2).symm⟩,
            fun j hij hjk _ => absurd (Nat.lt_succ_iff.mp hjk) (not_le.mpr hij)⟩
        · rw [if_neg hcond] at h2
          have hnv := not_validTriple_of_cond_false htr hcond
          obtain ⟨i, hik, hdata, hmax⟩ := ih h2
          refine ⟨i, hik.trans (Nat.lt_succ_self k), hdata, fun j hij hjk hv => ?_⟩
          rcases Nat.lt_succ_iff_lt_or_eq.mp hjk with hlt | rfl
          · exact hmax j hij hlt hv
          · exact hnv hv

/-- Claim C6: `summary()`'s drive/recovery ratio is
`(finish[i]-catch[i]) / (catch[i+1]-finish[i])` at the most recent index
with `catch[i] < finish[i] < catch[i+1]` (both durations positive), and is
absent exactly when no such triple exists. -/
theorem spec_C6_summary_drr (st : StrokeState) :
    (st.summary.drr = none ↔ ∀ i, ¬ validTriple st.catches st.finishes i) ∧
    (∀ r, st.summary.drr = some r →
      ∃ i tC tF tN, tripleAt st.catches st.finishes i = some (tC, tF, tN) ∧
        tC < tF ∧ tF < tN ∧ r = (tF - tC) / (tN - tF) ∧
        ∀ j, validTriple st.catches st.finishes j → j ≤ i) := by
  by_cases h2 : 2 ≤ st.catches.length
  · have hsum : st.summary.drr =
        drrLoop st.catches st.finishes
          (Nat.min st.finishes.length (st.catches.length - 1)) := by
      simp only [StrokeState.summary, if_pos h2]
    have hrange : ∀ i, validTriple st.catches st.finishes i →
        i < Nat.min st.finishes.length (st.catches.length - 1) := by
      intro i hv
      obtain ⟨hb1, hb2⟩ := validTriple_bounds hv
      exact Nat.lt_min.mpr ⟨hb2, by omega⟩
    constructor
    · rw [hsum, drrLoop_eq_none_iff]
      exact ⟨fun h i hv => h i (hrange i hv) hv, fun h i _ => h i⟩
    · intro r hr
      rw [hsum] at hr
      obtain ⟨i, _, ⟨tC, tF, tN, htr, h1, hlt2, hrq⟩, hmax⟩ :=
        drrLoop_eq_some _ _ _ _ hr
      refine ⟨i, tC, tF, tN, htr, h1, hlt2, hrq, fun j hv => ?_⟩
      by_contra hji
      exact hmax j (not_le.mp hji) (hrange j hv) hv
  · have hnone : st.summary.drr = none := by
      simp only [StrokeState.summary, if_neg h2]
    have hnv : ∀ i, ¬ validTriple st.catches st.finishes i := by
      intro i hv
      obtain ⟨hb1, _⟩ := validTriple_bounds hv
      omega
    refine ⟨by simp [hnone, hnv], fun r hr => ?_⟩
    rw [hnone] at hr
    exact Option.noConfusion hr

/-- Witness for C6 at a concrete two-catch, one-finish state. -/
theorem spec_C6_summary_drr_witness :
    ∃ i tC tF tN,
      tripleAt ({ StrokeState.init {} with catches := [0, 2], finishes := [1] } :
          StrokeState).catches
        ({ StrokeState.init {} with catches := [0, 2], finishes := [1] } :
          StrokeState).finishes i = some (tC, tF, tN) ∧
      tC < tF ∧ tF < tN ∧ (1 : ℚ) = (tF - tC) / (tN - tF) ∧
      ∀ j, validTriple ({ StrokeState.init {} with catches := [0, 2], finishes := [1] } :
          StrokeState).catches
        ({ StrokeState.init {} with catches := [0, 2], finishes := [1] } :
          StrokeState).finishes j → j ≤ i :=
  (spec_C6_summary_drr { StrokeState.init {} with catches := [0, 2], finishes := [1] }).2 1
    (by norm_num [StrokeState.summary, drrLoop, Nat.min])

/-! ### Step characterization lemmas for the update phases -/

theorem option_all_true {o : Option ℚ} {p : ℚ → Bool} (h : o.all p = true) :
    ∀ x ∈ o, p x = true := by
  cases o <;> simp_all [Option.all]

theorem maxSample_mem (x : Sample) (xs : List Sample) : maxSample x xs ∈ x :: xs := by
  induction xs generalizing x with
  | nil => exact List.mem_singleton.mpr rfl
  | cons y ys ih =>
      have hstep : maxSample x (y :: ys) = maxSample (if x.a < y.a then y else x) ys := rfl
      rw [hstep]
      rcases List.mem_cons.mp (ih (if x.a < y.a then y else x)) with heq | hmem
      · rw [heq]
        split
        · exact List.mem_cons_of_mem _ (List.mem_cons_self _ _)
        · exact List.mem_cons_self _ _
      · exact List.mem_cons_of_mem _ (List.mem_cons_of_mem _ hmem)

theorem le_maxSample (x : Sample) (xs : List Sample) :
    ∀ q ∈ x :: xs, q.a ≤ (maxSample x xs).a := by
  induction xs generalizing x with
  | nil =>
      intro q hq
      rcases List.mem_singleton.mp hq with rfl
      exact le_refl _
  | cons y ys ih =>
      intro q hq
      have hstep : maxSample x (y :: ys) = maxSample (if x.a < y.a then y else x) ys := rfl
      have hseed : (if x.a < y.a then y else x).a ≤
          (maxSample (if x.a < y.a then y else x) ys).a :=
        ih _ _ (List.mem_cons_self _ _)
      rw [hstep]
      rcases List.mem_cons.mp hq with rfl | hq2
      · refine le_trans ?_ hseed
        split
        · exact le_of_lt (by assumption)
        · exact le_refl _
      · rcases List.mem_cons.mp hq2 with rfl | hq3
        · refine le_trans ?_ hseed
          split
          · exact le_refl _
          · exact not_lt.mp (by assumption)
        · exact ih _ q (List.mem_cons_of_mem _ hq3)

theorem pushSampleDeriv_fields (st : StrokeState) (t a : ℚ) :
    (pushSampleDeriv st t a).catches = st.catches ∧
    (pushSampleDeriv st t a).finishes = st.finishes ∧
    (pushSampleDeriv st t a).minCatchIntervalSec = st.minCatchIntervalSec := by
  unfold pushSampleDeriv
  rcases st.angles.getLast? with _ | p
  · exact ⟨rfl, rfl, rfl⟩
  · exact ⟨rfl, rfl, rfl⟩

theorem streakStep_fields (st : StrokeState) :
    (streakStep st).catches = st.catches ∧
    (streakStep st).finishes = st.finishes ∧
    (streakStep st).minCatchIntervalSec = st.minCatchIntervalSec ∧
    (streakStep st).angles = st.angles := by
  unfold streakStep
  rcases st.deriv.getLast? with _ | dn
  · exact ⟨rfl, rfl, rfl, rfl⟩
  · exact ⟨rfl, rfl, rfl, rfl⟩

theorem primaryStep_spec (st : StrokeState) (t : ℚ) :
    ((primaryStep st t).catches = st.catches ∨
      ((primaryStep st t).catches = st.catches ++ [t] ∧
        lastCatchOk st.catches t st.minCatchIntervalSec = true)) ∧
    (primaryStep st t).finishes = st.finishes ∧
    (primaryStep st t).minCatchIntervalSec = st.minCatchIntervalSec ∧
    (primaryStep st t).angles = st.angles := by
  unfold primaryStep
  split
  · rename_i hguard
    refine ⟨Or.inr ⟨rfl, ?_⟩, rfl, rfl, rfl⟩
    unfold primaryGuard at hguard
    rcases hdp : st.deriv.get? (st.deriv.length - 2) with _ | dp <;>
      rcases hdn : st.deriv.getLast? with _ | dn <;> rw [hdp, hdn] at hguard
    · simp at hguard
    · simp at hguard
    · simp at hguard
    · have h3 : (st.smoothedOk && decide (dp.d < 0) && decide (0 ≤ dn.d) &&
          lastCatchOk st.catches t st.minCatchIntervalSec &&
          decide (st.confirmFrames ≤ st.posStreak) && st.isLocalMin) = true :=
        ((Bool.and_eq_true _ _).mp hguard).2
      simp only [Bool.and_eq_true] at h3
      exact h3.1.1.2
  · exact ⟨Or.inl rfl, rfl, rfl, rfl⟩

theorem fallbackStep_spec (st : StrokeState) (t : ℚ) :
    ((fallbackStep st t).catches = st.catches ∨
      ((fallbackStep st t).catches = st.catches ++ [t] ∧
        lastCatchOk st.catches t st.minCatchIntervalSec = true)) ∧
    (fallbackStep st t).finishes = st.finishes ∧
    (fallbackStep st t).minCatchIntervalSec = st.minCatchIntervalSec ∧
    (fallbackStep st t).angles = st.angles := by
  unfold fallbackStep
  split
  · rename_i hguard
    simp only [Bool.and_eq_true] at hguard
    exact ⟨Or.inr ⟨rfl, hguard.1.2⟩, rfl, rfl, rfl⟩
  · exact ⟨Or.inl rfl, rfl, rfl, rfl⟩

theorem fallbackStep_of_refractory_false (st : StrokeState) (t : ℚ)
    (h : lastCatchOk st.catches t st.minCatchIntervalSec = false) :
    fallbackStep st t = st := by
  unfold fallbackStep
  rw [h]
  simp

theorem finishStep_of_no_catch (st : StrokeState) (h : st.catches.getLast? = none) :
    finishStep st = st := by
  unfold finishStep
  rw [h]

theorem finishStep_spec (st : StrokeState) :
    (finishStep st).catches = st.catches ∧
    (finishStep st).minCatchIntervalSec = st.minCatchIntervalSec ∧
    (finishStep st).angles = st.angles ∧
    ((finishStep st).finishes = st.finishes ∨
      ∃ c p, st.catches.getLast? = some c ∧
        p ∈ st.angles.filter (fun q => decide (c ≤ q.t)) ∧
        (∀ q ∈ st.angles.filter (fun q => decide (c ≤ q.t)), q.a ≤ p.a) ∧
        (finishStep st).finishes = st.finishes ++ [p.t] ∧
        (∀ lf ∈ st.finishes.getLast?, lf < p.t)) := by
  rcases hlc : st.catches.getLast? with _ | c
  · rw [finishStep_of_no_catch st hlc]
    exact ⟨rfl, rfl, rfl, Or.inl rfl⟩
  · have hstep : finishStep st =
        (match st.angles.filter (fun q => decide (c ≤ q.t)) with
         | [] => st
         | x :: xs =>
             if 3 ≤ (x :: xs).length then
               if st.finishes.getLast?.all (fun lf => decide (lf < (maxSample x xs).t)) then
                 { st with finishes := st.finishes ++ [(maxSample x xs).t] }
               else st
             else st) := by
      unfold finishStep
      rw [hlc]
    rcases hw : st.angles.filter (fun q => decide (c ≤ q.t)) with _ | ⟨x, xs⟩
    · rw [hw] at hstep
      have hid : finishStep st = st := hstep
      rw [hid]
      exact ⟨rfl, rfl, rfl, Or.inl rfl⟩
    · rw [hw] at hstep
      have hred : finishStep st =
          (if 3 ≤ (x :: xs).length then
             if st.finishes.getLast?.all (fun lf => decide (lf < (maxSample x xs).t)) then
               { st with finishes := st.finishes ++ [(maxSample x xs).t] }
             else st
           else st) := hstep
      by_cases h3 : 3 ≤ (x :: xs).length
      · by_cases hall :
            st.finishes.getLast?.all (fun lf => decide (lf < (maxSample x xs).t)) = true
        · have hfin : finishStep st =
              { st with finishes := st.finishes ++ [(maxSample x xs).t] } := by
            rw [hred, if_pos h3, if_pos hall]
          rw [hfin]
          refine ⟨rfl, rfl, rfl, Or.inr ⟨c, maxSample x xs, rfl, ?_, ?_, rfl, ?_⟩⟩
          · rw [hw]
            exact maxSample_mem x xs
          · rw [hw]
            exact le_maxSample x xs
          · intro lf hlf
            exact of_decide_eq_true (option_all_true hall lf hlf)
        · have hfin : finishStep st = st := by
            rw [hred, if_pos h3, if_neg hall]
          rw [hfin]
          exact ⟨rfl, rfl, rfl, Or.inl rfl⟩
      · have hfin : finishStep st = st := by
          rw [hred, if_neg h3]
        rw [hfin]
        exact ⟨rfl, rfl, rfl, Or.inl rfl⟩

theorem update_some (st : StrokeState) (t a : ℚ) :
    st.update t (some a) =
      finishStep (fallbackStep (primaryStep (streakStep (pushSampleDeriv st t a)) t) t) := rfl

theorem lastCatchOk_append_self (catches : List ℚ) (t δ : ℚ) (hδ : 0 < δ) :
    lastCatchOk (catches ++ [t]) t δ = false := by
  unfold lastCatchOk
  rw [show (catches ++ [t]).getLast? = some t by simp]
  show decide (δ < t - t) = false
  simp only [sub_self, decide_eq_false_iff_not, not_lt]
  exact hδ.le

theorem chain_gap_append {δ t : ℚ} {l : List ℚ}
    (hch : l.Chain' (fun x y => δ < y - x))
    (hok : lastCatchOk l t δ = true) :
    (l ++ [t]).Chain' (fun x y => δ < y - x) := by
  rw [List.chain'_append]
  refine ⟨hch, List.chain'_singleton t, ?_⟩
  intro x hx y hy
  have hy2 : t = y := by simpa using hy
  subst hy2
  unfold lastCatchOk at hok
  rw [hx] at hok
  have hok2 : decide (δ < t - x) = true := hok
  exact of_decide_eq_true hok2

theorem update_gap_invariant (st : StrokeState) (t : ℚ) (angle : Option ℚ)
    (hinv : st.catches.Chain' (fun x y => st.minCatchIntervalSec < y - x)) :
    (st.update t angle).minCatchIntervalSec = st.minCatchIntervalSec ∧
    (st.update t angle).catches.Chain'
      (fun x y => st.minCatchIntervalSec < y - x) := by
  rcases angle with _ | a
  · exact ⟨rfl, hinv⟩
  · rw [update_some]
    obtain ⟨hc1, hf1, hm1⟩ := pushSampleDeriv_fields st t a
    obtain ⟨hc2, hf2, hm2, ha2⟩ := streakStep_fields (pushSampleDeriv st t a)
    obtain ⟨hc3, hf3, hm3, ha3⟩ := primaryStep_spec (streakStep (pushSampleDeriv st t a)) t
    obtain ⟨hc4, hf4, hm4, ha4⟩ :=
      fallbackStep_spec (primaryStep (streakStep (pushSampleDeriv st t a)) t) t
    obtain ⟨hc5, hm5, ha5, hf5⟩ :=
      finishStep_spec (fallbackStep (primaryStep (streakStep (pushSampleDeriv st t a)) t) t)
    have hδ2 : (streakStep (pushSampleDeriv st t a)).minCatchIntervalSec =
        st.minCatchIntervalSec := hm2.trans hm1
    have hcat2 : (streakStep (pushSampleDeriv st t a)).catches = st.catches := hc2.trans hc1
    have hch3 : (primaryStep (streakStep (pushSampleDeriv st t a)) t).catches.Chain'
        (fun x y => st.minCatchIntervalSec < y - x) := by
      rcases hc3 with heq | ⟨happ, hok⟩
      · rw [heq, hcat2]
        exact hinv
      · rw [happ, hcat2]
        rw [hcat2, hδ2] at hok
        exact chain_gap_append hinv hok
    have hδ3 : (primaryStep (streakStep (pushSampleDeriv st t a)) t).minCatchIntervalSec =
        st.minCatchIntervalSec := hm3.trans hδ2
    have hch4 : (fallbackStep (primaryStep (streakStep (pushSampleDeriv st t a)) t)
        t).catches.Chain' (fun x y => st.minCatchIntervalSec < y - x) := by
      rcases hc4 with heq | ⟨happ, hok⟩
      · rw [heq]
        exact hch3
      · rw [happ]
        rw [hδ3] at hok
        exact chain_gap_append hch3 hok
    refine ⟨hm5.trans (hm4.trans hδ3), ?_⟩
    rw [hc5]
    exact hch4

theorem runUpdates_gap_invariant (inputs : List (ℚ × Option ℚ)) (st : StrokeState)
    (hinv : st.catches.Chain' (fun x y => st.minCatchIntervalSec < y - x)) :
    (runUpdates st inputs).minCatchIntervalSec = st.minCatchIntervalSec ∧
    (runUpdates st inputs).catches.Chain'
      (fun x y => st.minCatchIntervalSec < y - x) := by
  induction inputs generalizing st with
  | nil => exact ⟨rfl, hinv⟩
  | cons p rest ih =>
      obtain ⟨h1, h2⟩ := update_gap_invariant st p.1 p.2 hinv
      have h2a : (st.update p.1 p.2).catches.Chain'
          (fun x y => (st.update p.1 p.2).minCatchIntervalSec < y - x) := by
        rw [h1]
        exact h2
      obtain ⟨h3, h4⟩ := ih (st.update p.1 p.2) h2a
      have hrun : runUpdates st (p :: rest) = runUpdates (st.update p.1 p.2) rest := rfl
      rw [h1] at h3 h4
      exact ⟨hrun ▸ h3, hrun ▸ h4⟩

/-- Claim C1: from a fresh detector with `minCatchIntervalSec > 0`, after
any sequence of updates with non-decreasing timestamps, the catch list is
strictly increasing with consecutive catches separated by at least the
configured refractory interval (the guard in both rules in fact enforces a
strict separation). Since this holds for every input list, it holds for
every prefix, i.e. at all times. -/
theorem spec_C1_catch_refractory (cfg : StrokeConfig) (inputs : List (ℚ × Option ℚ))
    (hδ : 0 < cfg.minCatchIntervalSec)
    (hts : (inputs.map Prod.fst).Chain' (· ≤ ·)) :
    (runUpdates (StrokeState.init cfg) inputs).catches.Chain'
      (fun x y => x < y ∧ x + cfg.minCatchIntervalSec ≤ y) := by
  obtain ⟨_, hchain⟩ :=
    runUpdates_gap_invariant inputs (StrokeState.init cfg) List.chain'_nil
  refine hchain.imp ?_
  intro x y hxy
  have hxy2 : cfg.minCatchIntervalSec < y - x := hxy
  constructor
  · linarith
  · linarith

/-- Witness for C1 on a concrete two-frame input stream. -/
theorem spec_C1_catch_refractory_witness :
    (runUpdates (StrokeState.init {}) [(0, some 100), (1, some 90)]).catches.Chain'
      (fun x y => x < y ∧ x + ({} : StrokeConfig).minCatchIntervalSec ≤ y) :=
  spec_C1_catch_refractory {} [(0, some 100), (1, some 90)]
    (by norm_num : (0 : ℚ) < 9/10)
    (by norm_num [List.chain'_cons])

/-- Claim C10: with a positive refractory interval, a single `update` call
appends at most one catch: if the primary rule has just pushed `t`, the
fallback rule's refractory comparison against that same `t` fails, so no
second append can occur in the same call. -/
theorem spec_C10_single_catch_per_update (st : StrokeState) (t : ℚ) (angle : Option ℚ)
    (hδ : 0 < st.minCatchIntervalSec) :
    (st.update t angle).catches.length ≤ st.catches.length + 1 := by
  rcases angle with _ | a
  · exact Nat.le_succ _
  · rw [update_some]
    obtain ⟨hc1, _, hm1⟩ := pushSampleDeriv_fields st t a
    obtain ⟨hc2, _, hm2, _⟩ := streakStep_fields (pushSampleDeriv st t a)
    obtain ⟨hc3, _, hm3, _⟩ := primaryStep_spec (streakStep (pushSampleDeriv st t a)) t
    obtain ⟨hc5, _, _, _⟩ :=
      finishStep_spec (fallbackStep (primaryStep (streakStep (pushSampleDeriv st t a)) t) t)
    have hcat2 : (streakStep (pushSampleDeriv st t a)).catches = st.catches := hc2.trans hc1
    have hδ3 : (primaryStep (streakStep (pushSampleDeriv st t a)) t).minCatchIntervalSec =
        st.minCatchIntervalSec := hm3.trans (hm2.trans hm1)
    rw [hc5]
    rcases hc3 with heq3 | ⟨happ3, _⟩
    · obtain ⟨hc4, _, _, _⟩ :=
        fallbackStep_spec (primaryStep (streakStep (pushSampleDeriv st t a)) t) t
      rcases hc4 with heq4 | ⟨happ4, _⟩
      · rw [heq4, heq3, hcat2]
        exact Nat.le_succ _
      · rw [happ4, heq3, hcat2]
        simp
    · have hlc : lastCatchOk (primaryStep (streakStep (pushSampleDeriv st t a)) t).catches t
          (primaryStep (streakStep (pushSampleDeriv st t a)) t).minCatchIntervalSec = false := by
        rw [happ3, hcat2, hδ3]
        exact lastCatchOk_append_self st.catches t st.minCatchIntervalSec hδ
      rw [fallbackStep_of_refractory_false _ t hlc, happ3, hcat2]
      simp

/-- Witness for C10 at a concrete fresh state. -/
theorem spec_C10_single_catch_per_update_witness :
    ((StrokeState.init {}).update 0 (some 100)).catches.length ≤
      (StrokeState.init {}).catches.length + 1 :=
  spec_C10_single_catch_per_update (StrokeState.init {}) 0 (some 100)
    (by norm_num : (0 : ℚ) < 9/10)

/-- Claim C3: an `update` call either leaves the finish list unchanged or
appends exactly one finish, which is the timestamp of a maximum-angle raw
sample among the samples at or after the most recent catch, and which is
strictly greater than the previously recorded finish; consequently a
strictly increasing finish list stays strictly increasing (the finish
sequence never regresses). -/
theorem spec_C3_finish_monotone (st : StrokeState) (t : ℚ) (angle : Option ℚ)
    (hmono : st.finishes.Chain' (· < ·)) :
    (st.update t angle).finishes.Chain' (· < ·) ∧
    ((st.update t angle).finishes = st.finishes ∨
      ∃ c p, (st.update t angle).catches.getLast? = some c ∧
        p ∈ (st.update t angle).angles.filter (fun q => decide (c ≤ q.t)) ∧
        (∀ q ∈ (st.update t angle).angles.filter (fun q => decide (c ≤ q.t)), q.a ≤ p.a) ∧
        (st.update t angle).finishes = st.finishes ++ [p.t] ∧
        (∀ lf ∈ st.finishes.getLast?, lf < p.t)) := by
  rcases angle with _ | a
  · exact ⟨hmono, Or.inl rfl⟩
  · rw [update_some]
    obtain ⟨_, hf1, _⟩ := pushSampleDeriv_fields st t a
    obtain ⟨_, hf2, _, _⟩ := streakStep_fields (pushSampleDeriv st t a)
    obtain ⟨_, hf3, _, _⟩ := primaryStep_spec (streakStep (pushSampleDeriv st t a)) t
    obtain ⟨_, hf4, _, _⟩ :=
      fallbackStep_spec (primaryStep (streakStep (pushSampleDeriv st t a)) t) t
    obtain ⟨hc5, hm5, ha5, hf5⟩ :=
      finishStep_spec (fallbackStep (primaryStep (streakStep (pushSampleDeriv st t a)) t) t)
    have hfin4 : (fallbackStep (primaryStep (streakStep (pushSampleDeriv st t a)) t)
        t).finishes = st.finishes := hf4.trans (hf3.trans (hf2.trans hf1))
    rw [hfin4] at hf5
    rcases hf5 with heq | ⟨c, p, hlc, hpmem, hpmax, happ, hgt⟩
    · refine ⟨?_, Or.inl heq⟩
      rw [heq]
      exact hmono
    · refine ⟨?_, Or.inr ⟨c, p, ?_, ?_, ?_, happ, hgt⟩⟩
      · rw [happ, List.chain'_append]
        refine ⟨hmono, List.chain'_singleton _, ?_⟩
        intro x hx y hy
        have hy2 : p.t = y := by simpa using hy
        subst hy2
        exact hgt x hx
      · rw [hc5]
        exact hlc
      · rw [ha5]
        exact hpmem
      · rw [ha5]
        exact hpmax

/-- Witness for C3 at a concrete fresh state with a dropped angle. -/
theorem spec_C3_finish_monotone_witness :
    ((StrokeState.init {}).update 0 none).finishes.Chain' (· < ·) ∧
    (((StrokeState.init {}).update 0 none).finishes = (StrokeState.init {}).finishes ∨
      ∃ c p, ((StrokeState.init {}).update 0 none).catches.getLast? = some c ∧
        p ∈ ((StrokeState.init {}).update 0 none).angles.filter (fun q => decide (c ≤ q.t)) ∧
        (∀ q ∈ ((StrokeState.init {}).update 0 none).angles.filter
          (fun q => decide (c ≤ q.t)), q.a ≤ p.a) ∧
        ((StrokeState.init {}).update 0 none).finishes =
          (StrokeState.init {}).finishes ++ [p.t] ∧
        (∀ lf ∈ (StrokeState.init {}).finishes.getLast?, lf < p.t)) :=
  spec_C3_finish_monotone (StrokeState.init {}) 0 none List.chain'_nil

/-! ### GeometryKernel over ℝ

`angleAt` and `angleToVertical` use trigonometric functions, so they are
embedded over the real numbers (and are therefore noncomputable in Lean);
`Math.atan2(y, x)` is `Complex.arg ⟨x, y⟩`, with range `(-π, π]`. -/

/-- A 2D point `{x, y}`. -/
structure Pt where
  x : ℝ
  y : ℝ

/-- `Math.hypot`. -/
noncomputable def hypot (x y : ℝ) : ℝ := Real.sqrt (x ^ 2 + y ^ 2)

theorem hypot_eq_zero_iff (x y : ℝ) : hypot x y = 0 ↔ x = 0 ∧ y = 0 := by
  unfold hypot
  rw [Real.sqrt_eq_zero (by positivity)]
  constructor
  · intro h
    constructor <;> nlinarith [sq_nonneg x, sq_nonneg y]
  · rintro ⟨rfl, rfl⟩
    norm_num

open Classical in
/-- `angleAt(a, b, c)`: interior angle at `b` in degrees, `NaN` (embedded
as `none`) when either ray has zero length. -/
noncomputable def angleAt (a b c : Pt) : Option ℝ :=
  if hypot (a.x - b.x) (a.y - b.y) = 0 ∨ hypot (c.x - b.x) (c.y - b.y) = 0 then none
  else
    some (Real.arccos (max (-1) (min 1
        (((a.x - b.x) * (c.x - b.x) + (a.y - b.y) * (c.y - b.y)) /
          (hypot (a.x - b.x) (a.y - b.y) * hypot (c.x - b.x) (c.y - b.y))))) *
      180 / Real.pi)

/-- `Math.atan2(y, x)` as the argument of the complex number `x + y i`. -/
noncomputable def atan2 (y x : ℝ) : ℝ := Complex.arg ⟨x, y⟩

/-- The JavaScript `%` on reals, for a non-negative dividend and positive
divisor (the only use in `angleToVertical`, where the dividend is
`|...| + 180 ≥ 180`); in that range the JS truncating remainder and the
floor-based remainder coincide. -/
noncomputable def jsFloorMod (x y : ℝ) : ℝ := x - y * (⌊x / y⌋ : ℤ)

open Classical in
/-- `angleToVertical(p1, p2)`: absolute deviation of the segment from
straight-down vertical, `NaN` (embedded as `none`) for a zero-length
segment. -/
noncomputable def angleToVertical (p1 p2 : Pt) : Option ℝ :=
  if hypot (p2.x - p1.x) (p2.y - p1.y) = 0 then none
  else
    some |jsFloorMod (|(-90 : ℝ) - atan2 (p2.y - p1.y) (p2.x - p1.x) * 180 / Real.pi| + 180)
        360 - 180|

theorem jsFloorMod_nonneg (x y : ℝ) (hy : 0 < y) : 0 ≤ jsFloorMod x y := by
  unfold jsFloorMod
  have h := Int.floor_le (x / y)
  have h3 : x / y * y = x := div_mul_cancel₀ x hy.ne'
  nlinarith [mul_le_mul_of_nonneg_right h hy.le]

theorem jsFloorMod_lt (x y : ℝ) (hy : 0 < y) : jsFloorMod x y < y := by
  unfold jsFloorMod
  have h := Int.lt_floor_add_one (x / y)
  have h3 : x / y * y = x := div_mul_cancel₀ x hy.ne'
  nlinarith [mul_lt_mul_of_pos_right h hy]

theorem angleToVertical_of_ne (p1 p2 : Pt)
    (hne : hypot (p2.x - p1.x) (p2.y - p1.y) ≠ 0) :
    angleToVertical p1 p2 =
      some |jsFloorMod
          (|(-90 : ℝ) - atan2 (p2.y - p1.y) (p2.x - p1.x) * 180 / Real.pi| + 180) 360 - 180| := by
  unfold angleToVertical
  rw [if_neg hne]

/-- Claim C8: for every pair of points with nonzero connecting segment,
`angleToVertical` is defined with a value in `[0, 180]`; for a zero-length
segment it is `NaN` (`none`); and for the vertical segment
`(0,1) → (0,0)` it is exactly `0`. -/
theorem spec_C8_angleToVertical :
    (∀ p1 p2 : Pt, hypot (p2.x - p1.x) (p2.y - p1.y) ≠ 0 →
      ∃ v, angleToVertical p1 p2 = some v ∧ 0 ≤ v ∧ v ≤ 180) ∧
    (∀ p1 p2 : Pt, hypot (p2.x - p1.x) (p2.y - p1.y) = 0 →
      angleToVertical p1 p2 = none) ∧
    angleToVertical ⟨0, 1⟩ ⟨0, 0⟩ = some 0 := by
  refine ⟨?_, ?_, ?_⟩
  · intro p1 p2 hne
    rw [angleToVertical_of_ne p1 p2 hne]
    refine ⟨_, rfl, abs_nonneg _, ?_⟩
    have h1 := jsFloorMod_nonneg
      (|(-90 : ℝ) - atan2 (p2.y - p1.y) (p2.x - p1.x) * 180 / Real.pi| + 180) 360 (by norm_num)
    have h2 := jsFloorMod_lt
      (|(-90 : ℝ) - atan2 (p2.y - p1.y) (p2.x - p1.x) * 180 / Real.pi| + 180) 360 (by norm_num)
    rw [abs_le]
    constructor <;> linarith
  · intro p1 p2 heq
    unfold angleToVertical
    rw [if_pos heq]
  · have hne : hypot ((⟨0, 0⟩ : Pt).x - (⟨0, 1⟩ : Pt).x)
        ((⟨0, 0⟩ : Pt).y - (⟨0, 1⟩ : Pt).y) ≠ 0 := by
      show hypot ((0 : ℝ) - 0) ((0 : ℝ) - 1) ≠ 0
      intro h
      rw [hypot_eq_zero_iff] at h
      norm_num at h
    rw [angleToVertical_of_ne _ _ hne]
    have harg : atan2 ((⟨0, 0⟩ : Pt).y - (⟨0, 1⟩ : Pt).y)
        ((⟨0, 0⟩ : Pt).x - (⟨0, 1⟩ : Pt).x) = -(Real.pi / 2) := by
      show Complex.arg ⟨(0 : ℝ) - 0, (0 : ℝ) - 1⟩ = -(Real.pi / 2)
      have hz : (⟨(0 : ℝ) - 0, (0 : ℝ) - 1⟩ : ℂ) = -Complex.I := by
        apply Complex.ext <;> norm_num
      rw [hz, Complex.arg_neg_I]
    rw [harg]
    have hdeg : -(Real.pi / 2) * 180 / Real.pi = -90 := by
      rw [div_eq_iff Real.pi_ne_zero]
      ring
    rw [hdeg]
    have habs : |(-90 : ℝ) - -90| = 0 := by norm_num
    rw [habs]
    have hfl : jsFloorMod ((0 : ℝ) + 180) 360 = 180 := by
      unfold jsFloorMod
      have h12 : ((0 : ℝ) + 180) / 360 = 1/2 := by norm_num
      rw [h12]
      have hfloor : ⌊(1/2 : ℝ)⌋ = 0 := by
        rw [Int.floor_eq_zero_iff]
        constructor <;> norm_num
      rw [hfloor]
      norm_num
    rw [hfl]
    norm_num

theorem angleAt_of_ne (a b c : Pt)
    (h1 : hypot (a.x - b.x) (a.y - b.y) ≠ 0) (h2 : hypot (c.x - b.x) (c.y - b.y) ≠ 0) :
    angleAt a b c =
      some (Real.arccos (max (-1) (min 1
          (((a.x - b.x) * (c.x - b.x) + (a.y - b.y) * (c.y - b.y)) /
            (hypot (a.x - b.x) (a.y - b.y) * hypot (c.x - b.x) (c.y - b.y))))) *
        180 / Real.pi) := by
  unfold angleAt
  rw [if_neg (not_or.mpr ⟨h1, h2⟩)]

/-- Claim C9: `angleAt` returns the clamped-arccosine interior angle, a
value in `[0, 180]` whenever both rays are nonzero, `NaN` (`none`) when a
ray has zero length, and exactly `90` for the perpendicular triple
`a=(0,1), b=(0,0), c=(1,0)`. -/
theorem spec_C9_angleAt :
    (∀ a b c : Pt, hypot (a.x - b.x) (a.y - b.y) ≠ 0 → hypot (c.x - b.x) (c.y - b.y) ≠ 0 →
      ∃ v, angleAt a b c = some v ∧ 0 ≤ v ∧ v ≤ 180) ∧
    (∀ a b c : Pt, hypot (a.x - b.x) (a.y - b.y) = 0 ∨ hypot (c.x - b.x) (c.y - b.y) = 0 →
      angleAt a b c = none) ∧
    angleAt ⟨0, 1⟩ ⟨0, 0⟩ ⟨1, 0⟩ = some 90 := by
  refine ⟨?_, ?_, ?_⟩
  · intro a b c h1 h2
    rw [angleAt_of_ne a b c h1 h2]
    refine ⟨_, rfl, ?_, ?_⟩
    · have ha := Real.arccos_nonneg (max (-1) (min 1
        (((a.x - b.x) * (c.x - b.x) + (a.y - b.y) * (c.y - b.y)) /
          (hypot (a.x - b.x) (a.y - b.y) * hypot (c.x - b.x) (c.y - b.y)))))
      have hπ := Real.pi_pos
      positivity
    · have ha := Real.arccos_le_pi (max (-1) (min 1
        (((a.x - b.x) * (c.x - b.x) + (a.y - b.y) * (c.y - b.y)) /
          (hypot (a.x - b.x) (a.y - b.y) * hypot (c.x - b.x) (c.y - b.y)))))
      have hπ := Real.pi_pos
      rw [div_le_iff₀ hπ]
      nlinarith
  · intro a b c h
    unfold angleAt
    rw [if_pos h]
  · have h1 : hypot ((⟨0, 1⟩ : Pt).x - (⟨0, 0⟩ : Pt).x)
        ((⟨0, 1⟩ : Pt).y - (⟨0, 0⟩ : Pt).y) ≠ 0 := by
      show hypot ((0 : ℝ) - 0) ((1 : ℝ) - 0) ≠ 0
      intro h
      rw [hypot_eq_zero_iff] at h
      norm_num at h
    have h2 : hypot ((⟨1, 0⟩ : Pt).x - (⟨0, 0⟩ : Pt).x)
        ((⟨1, 0⟩ : Pt).y - (⟨0, 0⟩ : Pt).y) ≠ 0 := by
      show hypot ((1 : ℝ) - 0) ((0 : ℝ) - 0) ≠ 0
      intro h
      rw [hypot_eq_zero_iff] at h
      norm_num at h
    rw [angleAt_of_ne _ _ _ h1 h2]
    have hdot : ((⟨0, 1⟩ : Pt).x - (⟨0, 0⟩ : Pt).x) * ((⟨1, 0⟩ : Pt).x - (⟨0, 0⟩ : Pt).x) +
        ((⟨0, 1⟩ : Pt).y - (⟨0, 0⟩ : Pt).y) * ((⟨1, 0⟩ : Pt).y - (⟨0, 0⟩ : Pt).y) = 0 := by
      show ((0 : ℝ) - 0) * ((1 : ℝ) - 0) + ((1 : ℝ) - 0) * ((0 : ℝ) - 0) = 0
      ring
    rw [hdot]
    have hclamp : max (-1 : ℝ) (min 1 (0 /
        (hypot ((⟨0, 1⟩ : Pt).x - (⟨0, 0⟩ : Pt).x) ((⟨0, 1⟩ : Pt).y - (⟨0, 0⟩ : Pt).y) *
          hypot ((⟨1, 0⟩ : Pt).x - (⟨0, 0⟩ : Pt).x) ((⟨1, 0⟩ : Pt).y - (⟨0, 0⟩ : Pt).y)))) = 0 := by
      rw [zero_div]
      norm_num
    rw [hclamp, Real.arccos_zero]
    rw [show Real.pi / 2 * 180 / Real.pi = 90 from by
      rw [div_eq_iff Real.pi_ne_zero]; ring]

/-- Witness for C8 on a concrete non-degenerate segment. -/
theorem spec_C8_angleToVertical_witness :
    ∃ v, angleToVertical ⟨0, 0⟩ ⟨3, 4⟩ = some v ∧ 0 ≤ v ∧ v ≤ 180 :=
  spec_C8_angleToVertical.1 ⟨0, 0⟩ ⟨3, 4⟩ (by
    show hypot ((3 : ℝ) - 0) ((4 : ℝ) - 0) ≠ 0
    intro h
    rw [hypot_eq_zero_iff] at h
    norm_num at h)

/-- Witness for C9 on a concrete non-degenerate triple. -/
theorem spec_C9_angleAt_witness :
    ∃ v, angleAt ⟨0, 2⟩ ⟨0, 0⟩ ⟨2, 0⟩ = some v ∧ 0 ≤ v ∧ v ≤ 180 :=
  spec_C9_angleAt.1 ⟨0, 2⟩ ⟨0, 0⟩ ⟨2, 0⟩
    (by
      show hypot ((0 : ℝ) - 0) ((2 : ℝ) - 0) ≠ 0
      intro h
      rw [hypot_eq_zero_iff] at h
      norm_num at h)
    (by
      show hypot ((2 : ℝ) - 0) ((0 : ℝ) - 0) ≠ 0
      intro h
      rw [hypot_eq_zero_iff] at h
      norm_num at h)

end ErgVideo
